import Mathlib

/-!
Verification of the Mermaid flowchart parser (`parse_mermaid.py`).

The Python module is a single-pass, line-oriented parser.  We embed it
shallowly: lines are `List Char`, the per-line recognizers are executable
functions translated from the regular expressions the source applies, and
`parse` is a left fold over the trimmed non-empty lines.  Python's `re`
semantics are translated pattern by pattern, including `re.match` (anchored
prefix match), `re.search` (leftmost match, alternatives tried in order at
each position), greedy and lazy repetition, and the fact that the first
edge pattern `--\>|-{2,}>` is an UNGROUPED alternation, so the composed
expression `^(\w+)\s*--\>|-{2,}>\s*(\w+)` matches either a leading
`word -->` (group 1 only) or `-->word` anywhere (group 2 only).

Character classes are the ASCII fragments of Python's `\w`, `\s` and
`str.lower`; every input considered in the claims is ASCII.  The `.`
metacharacter does not match a newline in Python, and none of the strings
the recognizers scan can contain a newline because the input was already
split on newlines.
-/

namespace Mermaid

/-- Characters of Python's ASCII whitespace class, as used by `str.strip()`
and the regex class `\s`. -/
def pySpace (c : Char) : Bool :=
  c = ' ' || c = '\t' || c = '\n' || c = '\r' || c = '\x0b' || c = '\x0c'

/-- Python's regex word class `\w`, ASCII fragment: letters, digits, underscore. -/
def wordChar (c : Char) : Bool :=
  c.isAlpha || c.isDigit || c = '_'

/-- ASCII lower-casing, as Python's `str.lower` acts on ASCII text. -/
def asciiLower (c : Char) : Char :=
  if 'A' ≤ c && c ≤ 'Z' then Char.ofNat (c.toNat + 32) else c

/-- Lower-case a whole string. -/
def lowerL (l : List Char) : List Char := l.map asciiLower

/-- The character list of a string literal. -/
def lstr (s : String) : List Char := s.data

/-- Python `str.strip()`: drop whitespace from both ends. -/
def pyStrip (l : List Char) : List Char :=
  ((l.dropWhile pySpace).reverse.dropWhile pySpace).reverse

/-- Python `str.split('\n')`: split at every newline, no collapsing. -/
def splitNl : List Char → List (List Char)
  | [] => [[]]
  | c :: cs =>
    if c = '\n' then [] :: splitNl cs
    else
      match splitNl cs with
      | [] => [[c]]
      | l :: ls => (c :: l) :: ls

/-- The line list the parser works on:
`[line.strip() for line in text.split('\n') if line.strip()]`. -/
def prepLines (l : List Char) : List (List Char) :=
  ((splitNl l).map pyStrip).filter (fun x => !x.isEmpty)

/-- Consume an exact literal at the head of the input, returning the rest. -/
def dropLit : List Char → List Char → Option (List Char)
  | [], rest => some rest
  | _, [] => none
  | p :: ps, c :: cs => if p = c then dropLit ps cs else none

/-- Greedy `(\w+)` at the head: the maximal non-empty run of word
characters together with the remainder. -/
def wordRun (l : List Char) : Option (List Char × List Char) :=
  let w := l.takeWhile wordChar
  if w.isEmpty then none else some (w, l.dropWhile wordChar)

/-- Regex `\s+`: require at least one whitespace character, consume the
maximal run (the run is maximal because what follows in every pattern that
uses `\s+` cannot match whitespace). -/
def skipWs1 (l : List Char) : Option (List Char) :=
  match l with
  | c :: cs => if pySpace c then some ((c :: cs).dropWhile pySpace) else none
  | [] => none

/-- `re.match(r'(?:flowchart|graph)\s+(\w+)', line)`: the captured
direction token, if any. -/
def matchDirection (l : List Char) : Option (List Char) :=
  match dropLit (lstr "flowchart") l with
  | some r => (skipWs1 r).bind (fun r1 => (wordRun r1).map Prod.fst)
  | none =>
    match dropLit (lstr "graph") l with
    | some r => (skipWs1 r).bind (fun r1 => (wordRun r1).map Prod.fst)
    | none => none

/-- `re.match(r'subgraph\s+(\w+)(?:\s*\[(.*?)\])?', line)`: the subgraph id
and, when the optional bracketed group matches, its (possibly empty) title
text.  The lazy `(.*?)` stops at the first `]`; if no `]` follows, the
optional group matches the empty string instead and the title is absent. -/
def matchSubgraphLine (l : List Char) : Option (List Char × Option (List Char)) :=
  (dropLit (lstr "subgraph") l).bind fun r =>
  (skipWs1 r).bind fun r1 =>
  (wordRun r1).bind fun p =>
  let r3 := p.2.dropWhile pySpace
  match r3 with
  | '[' :: rest =>
    if rest.contains ']' then
      some (p.1, some (rest.takeWhile (fun c => c ≠ ']')))
    else some (p.1, none)
  | _ => some (p.1, none)

/-- The node-type enumeration of the source, all eleven variants. -/
inductive NodeType where
  | START | END | ACTION | DECISION | INPUT | TRANSFER
  | SUBPROCESS | MENU | PROMPT | ERROR | RETRY
deriving DecidableEq

/-- One classification pattern of `node_patterns`: either a word-bounded
literal `\btext\b` (the literal may contain a space, as in `\bstart call\b`),
the pattern `\?`, or the pattern `\{.*\}`. -/
inductive Pat where
  | word : List Char → Pat
  | qmark : Pat
  | braces : Pat
deriving DecidableEq

/-- Literal `p` occurs at the head of `s` and is followed by a word
boundary (end of string or a non-word character). -/
def wordBoundedAt (p : List Char) (s : List Char) : Bool :=
  p.isPrefixOf s &&
    (match s.drop p.length with
     | [] => true
     | c :: _ => !wordChar c)

/-- Scan for `\bp\b`: `prevWord` records whether the previous character was
a word character (so that the left boundary can be checked). -/
def hasWordBoundedGo (p : List Char) (prevWord : Bool) : List Char → Bool
  | [] => false
  | c :: cs =>
    (!prevWord && wordBoundedAt p (c :: cs)) || hasWordBoundedGo p (wordChar c) cs

/-- `re.search(r'\bp\b', s)` for a literal `p` that starts and ends with a
word character. -/
def hasWordBounded (p : List Char) (s : List Char) : Bool :=
  hasWordBoundedGo p false s

/-- `re.search(r'\{.*\}', s)` on newline-free text: some `{` is followed by
a later `}`. -/
def hasBracePair (s : List Char) : Bool :=
  match s.dropWhile (fun c => c ≠ '\x7b') with
  | _ :: rest => rest.contains '\x7d'
  | [] => false

/-- Evaluate one classification pattern on (already lower-cased) text. -/
def matchPat : Pat → List Char → Bool
  | Pat.word w, s => hasWordBounded w s
  | Pat.qmark, s => s.contains '?'
  | Pat.braces, s => hasBracePair s

/-- The `self.node_patterns` table of `MermaidParser.__init__`, in its
insertion order START, END, DECISION, INPUT, TRANSFER, MENU, PROMPT, ERROR. -/
def nodePatternTable : List (NodeType × List Pat) :=
  [ (NodeType.START,
      [Pat.word (lstr "start"), Pat.word (lstr "begin"), Pat.word (lstr "entry"),
       Pat.word (lstr "initial"), Pat.word (lstr "start call")]),
    (NodeType.END,
      [Pat.word (lstr "end"), Pat.word (lstr "stop"), Pat.word (lstr "done"),
       Pat.word (lstr "terminate"), Pat.word (lstr "end call"), Pat.word (lstr "hangup")]),
    (NodeType.DECISION,
      [Pat.qmark, Pat.braces, Pat.word (lstr "choice"), Pat.word (lstr "if"),
       Pat.word (lstr "press"), Pat.word (lstr "select"), Pat.word (lstr "option")]),
    (NodeType.INPUT,
      [Pat.word (lstr "input"), Pat.word (lstr "enter"), Pat.word (lstr "prompt"),
       Pat.word (lstr "get"), Pat.word (lstr "digits"), Pat.word (lstr "pin")]),
    (NodeType.TRANSFER,
      [Pat.word (lstr "transfer"), Pat.word (lstr "route"), Pat.word (lstr "dispatch"),
       Pat.word (lstr "forward"), Pat.word (lstr "connect")]),
    (NodeType.MENU,
      [Pat.word (lstr "menu"), Pat.word (lstr "options"), Pat.word (lstr "select"),
       Pat.word (lstr "choices")]),
    (NodeType.PROMPT,
      [Pat.word (lstr "play"), Pat.word (lstr "speak"), Pat.word (lstr "announce"),
       Pat.word (lstr "message")]),
    (NodeType.ERROR,
      [Pat.word (lstr "error"), Pat.word (lstr "fail"), Pat.word (lstr "invalid"),
       Pat.word (lstr "retry"), Pat.word (lstr "timeout")]) ]

/-- `_determine_node_type` over an arbitrary table: lower-case the text and
return the first type any of whose patterns matches, defaulting to ACTION. -/
def classifyText (table : List (NodeType × List Pat)) (text : List Char) : NodeType :=
  let low := lowerL text
  match table.find? (fun e => e.2.any (fun pt => matchPat pt low)) with
  | some e => e.1
  | none => NodeType.ACTION

/-- `MermaidParser._determine_node_type` with the table built in `__init__`. -/
def determineNodeType (text : List Char) : NodeType :=
  classifyText nodePatternTable text

end Mermaid

namespace Mermaid

/-- The `Node` dataclass of the source: id, verbatim text, inferred type,
and the three fields the parser never populates. -/
structure PyNode where
  id : List Char
  raw_text : List Char
  node_type : NodeType
  style_classes : List (List Char)
  subgraph : Option (List Char)
  properties : List (List Char × List Char)
deriving DecidableEq

/-- The `Edge` dataclass.  `from_id` is `match.group(1)`, which does NOT
participate in the match when alternative B of the basic-arrow pattern
fires, so it can be `None`; `to_id` is `match.group(match.lastindex)`,
always a word token.  `condition` is declared but never populated. -/
structure PyEdge where
  from_id : Option (List Char)
  to_id : List Char
  label : Option (List Char)
  style : List Char
  condition : Option (List Char)
deriving DecidableEq

/-- One subgraph record: `{'id': ..., 'title': ..., 'nodes': set()}`.  The
Python member set is modelled as an insertion-ordered duplicate-free list;
only membership is observable in the claims. -/
structure SubgraphRec where
  id : List Char
  title : List Char
  nodes : List (List Char)
deriving DecidableEq

/-- Python `set.add`. -/
def setAdd (s : List (List Char)) (a : List Char) : List (List Char) :=
  if a ∈ s then s else s ++ [a]

/-- Python `d[k] = v` on a dict: overwrite in place if the key exists
(keeping its position), otherwise append a new entry. -/
def dictSet {α β : Type} [DecidableEq α] : List (α × β) → α → β → List (α × β)
  | [], k, v => [(k, v)]
  | e :: rest, k, v => if e.1 = k then (k, v) :: rest else e :: dictSet rest k v

/-- Python `d.get(k)` / `d[k]` lookup on a dict with unique keys. -/
def dictLookup {α β : Type} [DecidableEq α] : List (α × β) → α → Option β
  | [], _ => none
  | e :: rest, k => if e.1 = k then some e.2 else dictLookup rest k

/-- `subgraphs[g]['nodes'].add(n)`.  Whenever the parser reaches this
operation the key is present, because the current-subgraph marker is only
ever set in the same branch that stores the record. -/
def addMember : List (List Char × SubgraphRec) → List Char → List Char →
    List (List Char × SubgraphRec)
  | [], _, _ => []
  | e :: rest, g, n =>
    if e.1 = g then (e.1, { e.2 with nodes := setAdd e.2.nodes n }) :: rest
    else e :: addMember rest g n

/-- The four node-shape grammars share one form:
`^(\w+)\s*OPN"TEXT"CLS` with `TEXT` the non-empty greedy `([^"]+)`.
`re.match` only anchors the start, so trailing text on the line is ignored. -/
def nodeShape (opn cls : List Char) (l : List Char) : Option (List Char × List Char) :=
  (wordRun l).bind fun p =>
  (dropLit opn (p.2.dropWhile pySpace)).bind fun r2 =>
  match r2 with
  | '"' :: r3 =>
    let t := r3.takeWhile (fun c => c ≠ '"')
    if t.isEmpty then none
    else
      match r3.dropWhile (fun c => c ≠ '"') with
      | '"' :: r5 => (dropLit cls r5).map (fun _ => (p.1, t))
      | _ => none
  | _ => none

/-- `_parse_node`'s four patterns, tried in their listed order. -/
def nodeRaw (l : List Char) : Option (List Char × List Char) :=
  match nodeShape (lstr "[") (lstr "]") l with
  | some r => some r
  | none =>
    match nodeShape (lstr "\x7b") (lstr "\x7d") l with
    | some r => some r
    | none =>
      match nodeShape (lstr "(") (lstr ")") l with
      | some r => some r
      | none => nodeShape (lstr "[(") (lstr ")]") l

/-- `MermaidParser._parse_node`, classification table supplied by the
parser instance: the returned `Node` gets empty `style_classes`, no
`subgraph` back-reference and empty `properties`. -/
def parseNodeWith (table : List (NodeType × List Pat)) (l : List Char) :
    Option (List Char × PyNode) :=
  (nodeRaw l).map fun p =>
    (p.1, { id := p.1, raw_text := p.2, node_type := classifyText table p.2,
            style_classes := [], subgraph := none, properties := [] })

/-- The four connector grammars of `self.edge_patterns`, in insertion order. -/
inductive EdgeGrammar where
  | basic | labeled | optionalArrow | primary
deriving DecidableEq

/-- Alternative A of the composed basic-arrow search
`^(\w+)\s*--\>|-{2,}>\s*(\w+)`: a leading `word` then optional whitespace
then exactly `-->`.  Only group 1 participates, so `match.lastindex = 1`
and the code reads the same word back as `to_id`. -/
def basicAltA (l : List Char) : Option (List Char) :=
  (wordRun l).bind fun p =>
    if (lstr "-->").isPrefixOf (p.2.dropWhile pySpace) then some p.1 else none

/-- Alternative B at one position: `-{2,}>\s*(\w+)` — a maximal run of at
least two dashes, then `>`, optional whitespace and a word.  Backtracking
inside the dash run cannot help because every shorter split leaves a dash
where `>` is required. -/
def basicAltBAt (l : List Char) : Option (List Char) :=
  let d := (l.takeWhile (fun c => c = '-')).length
  if 2 ≤ d then
    match l.drop d with
    | '>' :: r => (wordRun (r.dropWhile pySpace)).map Prod.fst
    | _ => none
  else none

/-- `re.search` scan for alternative B: leftmost matching position wins. -/
def basicAltBScan : List Char → Option (List Char)
  | [] => none
  | c :: cs =>
    match basicAltBAt (c :: cs) with
    | some w => some w
    | none => basicAltBScan cs

/-- The whole basic pattern: alternative A fires only at position 0 and is
tried there first; alternative B can never match at a position where A
does (A needs a word character first, B needs a dash).  Result is
(group 1 if it participated, group at `lastindex`). -/
def matchBasic (l : List Char) : Option (Option (List Char) × List Char) :=
  match basicAltA l with
  | some w => some (some w, w)
  | none => (basicAltBScan l).map (fun w => (none, w))

/-- Backtracking tail of the labeled pattern after `--|` was consumed: the
lazy `(.*?)\|->` tries each later occurrence of `|->` in order until
`\s*(\w+)` succeeds after it. -/
def matchLabeledGo : List Char → Option (List Char)
  | [] => none
  | c :: cs =>
    if (lstr "|->").isPrefixOf (c :: cs) then
      match wordRun (((c :: cs).drop 3).dropWhile pySpace) with
      | some p => some p.1
      | none => matchLabeledGo cs
    else matchLabeledGo cs

/-- `^(\w+)\s*--\|(.*?)\|->\s*(\w+)` (the labeled grammar, searched but in
effect anchored by `^`): here `lastindex = 3`, the word after the arrow. -/
def matchLabeled (l : List Char) : Option (Option (List Char) × List Char) :=
  (wordRun l).bind fun p =>
  (dropLit (lstr "--|") (p.2.dropWhile pySpace)).bind fun r2 =>
  (matchLabeledGo r2).map (fun t => (some p.1, t))

/-- `^(\w+)\s*-\.->\s*(\w+)` (dotted arrow). -/
def matchOptionalArrow (l : List Char) : Option (Option (List Char) × List Char) :=
  (wordRun l).bind fun p =>
  (dropLit (lstr "-.->") (p.2.dropWhile pySpace)).bind fun r2 =>
  (wordRun (r2.dropWhile pySpace)).map (fun q => (some p.1, q.1))

/-- `^(\w+)\s*==+>\s*(\w+)` (thick arrow): a maximal run of at least two
`=` then `>`, same backtracking argument as for the dashes. -/
def matchPrimary (l : List Char) : Option (Option (List Char) × List Char) :=
  (wordRun l).bind fun p =>
  let r := p.2.dropWhile pySpace
  let d := (r.takeWhile (fun c => c = '=')).length
  if 2 ≤ d then
    match r.drop d with
    | '>' :: r2 => (wordRun (r2.dropWhile pySpace)).map (fun q => (some p.1, q.1))
    | _ => none
  else none

/-- Dispatch a connector grammar to its matcher. -/
def matchEdgeGrammar : EdgeGrammar → List Char → Option (Option (List Char) × List Char)
  | EdgeGrammar.basic, l => matchBasic l
  | EdgeGrammar.labeled, l => matchLabeled l
  | EdgeGrammar.optionalArrow, l => matchOptionalArrow l
  | EdgeGrammar.primary, l => matchPrimary l

/-- The second, independent search the code runs for the label:
`re.search(r'--\|(.*?)\|->', line)`, group 1 stripped.  Leftmost `--|`
whose remainder contains `|->`; the lazy group stops at the first `|->`. -/
def splitAtLit (pat : List Char) : List Char → Option (List Char)
  | [] => if pat.isEmpty then some [] else none
  | c :: cs =>
    if pat.isPrefixOf (c :: cs) then some []
    else (splitAtLit pat cs).map (fun pre => c :: pre)

/-- Scan for the label as described at `splitAtLit`. -/
def findLabelFrom : List Char → Option (List Char)
  | [] => none
  | c :: cs =>
    match dropLit (lstr "--|") (c :: cs) with
    | some r =>
      match splitAtLit (lstr "|->") r with
      | some lab => some (pyStrip lab)
      | none => findLabelFrom cs
    | none => findLabelFrom cs

/-- `MermaidParser._parse_edge`: try the grammars in table order; on a match
build the edge, running the separate label search only when the style tag
is `'label'`. -/
def parseEdgeWith (pats : List (EdgeGrammar × List Char)) (l : List Char) : Option PyEdge :=
  match pats with
  | [] => none
  | (g, sty) :: rest =>
    match matchEdgeGrammar g l with
    | some r =>
      let lab := if sty = lstr "label" then findLabelFrom l else none
      some { from_id := r.1, to_id := r.2, label := lab, style := sty, condition := none }
    | none => parseEdgeWith rest l

/-- `MermaidParser._parse_style`: `re.match(r'classDef\s+(\w+)\s+(.*?)$')`. -/
def parseStyle (l : List Char) : Option (List Char × List Char) :=
  (dropLit (lstr "classDef") l).bind fun r =>
  (skipWs1 r).bind fun r1 =>
  (wordRun r1).bind fun p =>
  (skipWs1 p.2).map (fun r2 => (p.1, r2))

/-- The parser instance: the two pattern tables built by
`MermaidParser.__init__` and never mutated afterwards. -/
structure MermaidParser where
  node_patterns : List (NodeType × List Pat)
  edge_patterns : List (EdgeGrammar × List Char)
deriving DecidableEq

/-- `MermaidParser.__init__`. -/
def MermaidParser.init : MermaidParser :=
  { node_patterns := nodePatternTable,
    edge_patterns :=
      [ (EdgeGrammar.basic, lstr ""), (EdgeGrammar.labeled, lstr "label"),
        (EdgeGrammar.optionalArrow, lstr "optional"), (EdgeGrammar.primary, lstr "primary") ] }

/-- The local state of one `parse` call: the four result collections plus
the single current-subgraph marker. -/
structure ParseState where
  nodes : List (List Char × PyNode)
  edges : List PyEdge
  subgraphs : List (List Char × SubgraphRec)
  title : Option (List Char)
  direction : List Char
  styles : List (List Char × List Char)
  current : Option (List Char)
deriving DecidableEq

/-- The state at the top of `parse`. -/
def initState : ParseState :=
  { nodes := [], edges := [], subgraphs := [], title := none,
    direction := lstr "TD", styles := [], current := none }

/-- `line.startswith('%%') or line.startswith('%')`. -/
def isComment (l : List Char) : Bool :=
  (lstr "%%").isPrefixOf l || (lstr "%").isPrefixOf l

/-- `line.startswith('flowchart') or line.startswith('graph')`. -/
def startsDirective (l : List Char) : Bool :=
  (lstr "flowchart").isPrefixOf l || (lstr "graph").isPrefixOf l

/-- `line.startswith('subgraph')`. -/
def startsSubgraphTok (l : List Char) : Bool :=
  (lstr "subgraph").isPrefixOf l

/-- The exact subgraph-close line. -/
def endTok : List Char := lstr "end"

/-- The body of the `for line in lines` loop of `MermaidParser.parse`,
acting on one already-stripped non-empty line. -/
def step (p : MermaidParser) (st : ParseState) (l : List Char) : ParseState :=
  if isComment l then st
  else if startsDirective l then
    match matchDirection l with
    | some d => { st with direction := d }
    | none => st
  else if startsSubgraphTok l then
    match matchSubgraphLine l with
    | some r =>
      let ttl := match r.2 with
        | some s => if s.isEmpty then r.1 else s
        | none => r.1
      { st with current := some r.1,
                subgraphs := dictSet st.subgraphs r.1
                  { id := r.1, title := ttl, nodes := [] } }
    | none => st
  else if l = endTok then { st with current := none }
  else
    match parseNodeWith p.node_patterns l with
    | some e =>
      let withNode := { st with nodes := dictSet st.nodes e.1 e.2 }
      match st.current with
      | some g => { withNode with subgraphs := addMember withNode.subgraphs g e.1 }
      | none => withNode
    | none =>
      match parseEdgeWith p.edge_patterns l with
      | some e => { st with edges := st.edges ++ [e] }
      | none =>
        match parseStyle l with
        | some s => { st with styles := dictSet st.styles s.1 s.2 }
        | none => st

/-- The metadata dictionary of the result. -/
structure Metadata where
  title : Option (List Char)
  direction : List Char
  styles : List (List Char × List Char)
deriving DecidableEq

/-- The dictionary `parse` returns. -/
structure ParseResult where
  nodes : List (List Char × PyNode)
  edges : List PyEdge
  subgraphs : List (List Char × SubgraphRec)
  metadata : Metadata
deriving DecidableEq

/-- Package the final loop state as the returned dictionary. -/
def finishState (st : ParseState) : ParseResult :=
  { nodes := st.nodes, edges := st.edges, subgraphs := st.subgraphs,
    metadata := { title := st.title, direction := st.direction, styles := st.styles } }

/-- `MermaidParser.parse` on the split, stripped, non-empty lines. -/
def MermaidParser.parseChars (p : MermaidParser) (text : List Char) : ParseResult :=
  finishState ((prepLines text).foldl (step p) initState)

/-- A method call `parser.parse(s)` on an instance: the result together
with the instance afterwards (the method never assigns to `self`). -/
def MermaidParser.parseCall (p : MermaidParser) (s : String) : ParseResult × MermaidParser :=
  (p.parseChars s.data, p)

/-- The module-level convenience wrapper `parse_mermaid`: build a fresh
parser and call `parse` on it. -/
def parse_mermaid (s : String) : ParseResult :=
  (MermaidParser.init.parseCall s).1

end Mermaid

namespace Mermaid

/-- The end-to-end example input of claim C1. -/
def c1Input : String :=
  "flowchart TD\nA[\"Start\"] --> B\x7b\"Decision?\"\x7d\nB -->|\"yes\"| C[\"End\"]\nB -->|\"no\"| A"

/-- The node stored for `A["Start"]`. -/
def c1NodeA : PyNode :=
  { id := lstr "A", raw_text := lstr "Start", node_type := NodeType.START,
    style_classes := [], subgraph := none, properties := [] }

/-- The self-loop edge the broken basic-arrow pattern produces from a line
beginning `B -->`. -/
def c1EdgeBB : PyEdge :=
  { from_id := some (lstr "B"), to_id := lstr "B", label := none,
    style := lstr "", condition := none }

/-- C1: on the four-line example the code does NOT return the output the
claim describes.  It returns direction `TD` and node A as claimed, but the
only node is A (the node recognizer consumes its whole line, so `B{...}`
and `C[...]` in arrow position are never recognized), and both arrow lines
collapse to the self-loop edge (B, B, no label) because the basic-arrow
pattern `--\>|-{2,}>` is an ungrouped alternation: `^(\w+)\s*--\>` alone
matches, `match.lastindex` is 1, and `to_id` reads back group 1. -/
theorem C1_actual :
    parse_mermaid c1Input =
      { nodes := [(lstr "A", c1NodeA)],
        edges := [c1EdgeBB, c1EdgeBB],
        subgraphs := [],
        metadata := { title := none, direction := lstr "TD", styles := [] } } := by
  decide

/-- C2: the single line `A -->|"Press 1"| B` yields exactly one edge, but
that edge is (A, A) with no label and the basic style tag, not
(A, B, "Press 1"): the basic-arrow alternative `^(\w+)\s*--\>` fires first
and the labeled grammar `--\|(.*?)\|->` cannot match `-->|...|` syntax. -/
theorem C2_actual :
    (parse_mermaid "A -->|\"Press 1\"| B").edges =
      [{ from_id := some (lstr "A"), to_id := lstr "A", label := none,
         style := lstr "", condition := none }] := by
  decide

/-- C3: for the basic connector grammar the extracted `to_id` is NOT the
identifier right of the arrow: `A --> B` yields the edge (A, A), and
`--> B` yields an edge whose `from_id` is `None` (group 1 did not
participate in the match).  For contrast, the labeled grammar on its own
`--|label|->` syntax does behave as the claim says, including the
whitespace-trimmed label. -/
theorem C3_actual :
    (parse_mermaid "A --> B").edges =
      [{ from_id := some (lstr "A"), to_id := lstr "A", label := none,
         style := lstr "", condition := none }] ∧
    (parse_mermaid "--> B").edges =
      [{ from_id := none, to_id := lstr "B", label := none,
         style := lstr "", condition := none }] ∧
    (parse_mermaid "A --| go |-> B").edges =
      [{ from_id := some (lstr "A"), to_id := lstr "B", label := some (lstr "go"),
         style := lstr "label", condition := none }] := by
  refine ⟨by decide, by decide, by decide⟩

/-- Lines that are syntactically valid node definitions in the sense of
`_parse_node` alone, regardless of where the dispatch sends them. -/
def validNodeIds (s : String) : List (List Char) :=
  (prepLines s.data).filterMap
    (fun l => (parseNodeWith MermaidParser.init.node_patterns l).map Prod.fst)

/-- C4 counterexample: the line `graph["x"]` is a syntactically valid node
definition (`_parse_node` accepts it with id `graph`), but the dispatch
consumes every line starting with `graph` in the direction-directive
branch, so the result's node mapping is empty: 0 entries against 1
distinct id. -/
theorem C4_counterexample :
    ¬ ((parse_mermaid "graph[\"x\"]").nodes.length =
        (validNodeIds "graph[\"x\"]").dedup.length) := by
  decide

/-- C6 counterexample input: re-opening subgraph G resets its member set. -/
def c6Input : String := "subgraph G\nA[\"x\"]\nend\nsubgraph G\nend"

/-- C6 counterexample: node A is defined strictly between the first
`subgraph G` line and the next `end` line, and it IS recorded in the node
mapping, yet in the final result subgraph G has an empty member set,
because the later `subgraph G` line stores a fresh record with
`'nodes': set()` over the old one. -/
theorem C6_counterexample :
    dictLookup (parse_mermaid c6Input).nodes (lstr "A") =
      some { id := lstr "A", raw_text := lstr "x", node_type := NodeType.ACTION,
             style_classes := [], subgraph := none, properties := [] } ∧
    dictLookup (parse_mermaid c6Input).subgraphs (lstr "G") =
      some { id := lstr "G", title := lstr "G", nodes := [] } := by
  refine ⟨by decide, by decide⟩

/-- C5: classification lower-cases the text and scans the table in the
fixed order START, END, DECISION, INPUT, TRANSFER, MENU, PROMPT, ERROR,
returning the first type with a matching pattern; the claim's five example
texts classify as stated, `Enter PIN?` shows DECISION being found before
INPUT in the scan order, and any text matched by no pattern at all falls
through to ACTION. -/
theorem C5_classification :
    determineNodeType (lstr "Start Call") = NodeType.START ∧
    determineNodeType (lstr "Enter PIN") = NodeType.INPUT ∧
    determineNodeType (lstr "Transfer to Agent") = NodeType.TRANSFER ∧
    determineNodeType (lstr "Thank you") = NodeType.ACTION ∧
    determineNodeType (lstr "Press 1 or 2?") = NodeType.DECISION ∧
    determineNodeType (lstr "Enter PIN?") = NodeType.DECISION ∧
    ∀ t : List Char,
      (nodePatternTable.all fun e => e.2.all fun pt => !matchPat pt (lowerL t)) = true →
      determineNodeType t = NodeType.ACTION := by
  refine ⟨by decide, by decide, by decide, by decide, by decide, by decide, ?_⟩
  intro t h
  have hfind : nodePatternTable.find?
      (fun e => e.2.any (fun pt => matchPat pt (lowerL t))) = none := by
    apply List.find?_eq_none.mpr
    intro x hx
    have hx2 := (List.all_eq_true.mp h) x hx
    simp only [List.all_eq_true, Bool.not_eq_true'] at hx2
    intro hany
    obtain ⟨pt, hmem, hmatch⟩ := List.any_eq_true.mp hany
    rw [hx2 pt hmem] at hmatch
    exact Bool.false_ne_true hmatch
  simp [determineNodeType, classifyText, hfind]

/-- Witness for the default clause of C5: a text with no keyword, no
question mark and no braces classifies as ACTION. -/
theorem C5_classification_witness :
    determineNodeType (lstr "thank you very much") = NodeType.ACTION :=
  C5_classification.2.2.2.2.2.2 (lstr "thank you very much") (by decide)

end Mermaid

namespace Mermaid

/-- A line reaches the node recognizer iff it is not consumed by one of
the earlier dispatch branches: comment, flowchart/graph directive,
subgraph-open, subgraph-close. -/
def reachesNodeRec (l : List Char) : Bool :=
  !isComment l && !startsDirective l && !startsSubgraphTok l && !decide (l = endTok)

/-- The node definition one processed line contributes to the result. -/
def procNodeDef (p : MermaidParser) (l : List Char) : Option (List Char × PyNode) :=
  if reachesNodeRec l then parseNodeWith p.node_patterns l else none

/-- The id of the node definition one processed line contributes. -/
def nodeLineId (p : MermaidParser) (l : List Char) : Option (List Char) :=
  (procNodeDef p l).map Prod.fst

/-- The subgraph id a processed line opens, if any. -/
def sgOpenId (l : List Char) : Option (List Char) :=
  if isComment l then none
  else if startsDirective l then none
  else if startsSubgraphTok l then (matchSubgraphLine l).map Prod.fst
  else none

/-- Whether a processed line is the subgraph-close line. -/
def isEndL (l : List Char) : Bool :=
  !isComment l && !startsDirective l && !startsSubgraphTok l && decide (l = endTok)

/-- The subgraph-context transition a single line causes. -/
def ctxStep (c : Option (List Char)) (l : List Char) : Option (List Char) :=
  match sgOpenId l with
  | some g => some g
  | none => if isEndL l then none else c

/-- The subgraph context open after processing a list of lines. -/
def ctxAfter (ls : List (List Char)) : Option (List Char) :=
  ls.foldl ctxStep none

/-- Looking a key up after a dict assignment. -/
theorem dictLookup_dictSet {α β : Type} [DecidableEq α]
    (d : List (α × β)) (k a : α) (v : β) :
    dictLookup (dictSet d k v) a = if a = k then some v else dictLookup d a := by
  induction d with
  | nil =>
    by_cases h : a = k <;> simp_all [dictSet, dictLookup, eq_comm]
  | cons e rest ih =>
    by_cases he : e.1 = k <;> by_cases h : a = k <;> by_cases hea : e.1 = a <;>
      simp_all [dictSet, dictLookup]

/-- The key sequence after a dict assignment. -/
theorem keys_dictSet {α β : Type} [DecidableEq α] (d : List (α × β)) (k : α) (v : β) :
    (dictSet d k v).map Prod.fst =
      if k ∈ d.map Prod.fst then d.map Prod.fst else d.map Prod.fst ++ [k] := by
  induction d with
  | nil => simp [dictSet]
  | cons e rest ih =>
    by_cases he : e.1 = k
    · simp [dictSet, he]
    · have hne : ¬ k = e.1 := fun h => he h.symm
      simp only [dictSet, if_neg he, List.map_cons, ih, List.mem_cons, hne, false_or]
      by_cases hk : k ∈ rest.map Prod.fst
      · simp [hk]
      · simp [hk]

/-- Membership after a dict assignment. -/
theorem mem_dictSet {α β : Type} [DecidableEq α] {d : List (α × β)} {k : α} {v : β}
    {q : α × β} (hq : q ∈ dictSet d k v) : q ∈ d ∨ q = (k, v) := by
  induction d with
  | nil => simp [dictSet] at hq; simp [hq]
  | cons e rest ih =>
    by_cases he : e.1 = k
    · simp only [dictSet, if_pos he, List.mem_cons] at hq
      rcases hq with h | h
      · right; exact h
      · left; exact List.mem_cons_of_mem _ h
    · simp only [dictSet, if_neg he, List.mem_cons] at hq
      rcases hq with h | h
      · left; simp [h]
      · rcases ih h with h2 | h2
        · left; exact List.mem_cons_of_mem _ h2
        · right; exact h2

/-- Looking a key up after a member insertion: only the addressed record
changes, and only by inserting into its member set. -/
theorem dictLookup_addMember (d : List (List Char × SubgraphRec)) (a x k : List Char) :
    dictLookup (addMember d a x) k =
      if k = a then
        (dictLookup d a).map (fun s => { s with nodes := setAdd s.nodes x })
      else dictLookup d k := by
  induction d with
  | nil => by_cases h : k = a <;> simp [addMember, dictLookup, h]
  | cons e rest ih =>
    by_cases he : e.1 = a <;> by_cases h : k = a <;> by_cases hek : e.1 = k <;>
      simp_all [addMember, dictLookup]

/-- Membership in a set after `add`. -/
theorem mem_setAdd (s : List (List Char)) (a n : List Char) :
    n ∈ setAdd s a ↔ n ∈ s ∨ n = a := by
  by_cases h : a ∈ s
  · simp only [setAdd, if_pos h]
    constructor
    · exact fun hn => Or.inl hn
    · rintro (hn | rfl)
      · exact hn
      · exact h
  · simp [setAdd, if_neg h]

end Mermaid

namespace Mermaid

/-- How one loop iteration changes the node mapping: exactly the node
definition the line contributes (if any) is stored. -/
theorem step_nodes (p : MermaidParser) (st : ParseState) (l : List Char) :
    (step p st l).nodes =
      match procNodeDef p l with
      | some e => dictSet st.nodes e.1 e.2
      | none => st.nodes := by
  unfold step procNodeDef reachesNodeRec
  by_cases h1 : isComment l
  · simp [h1]
  · by_cases h2 : startsDirective l
    · cases hm : matchDirection l <;> simp [h1, h2, hm]
    · by_cases h3 : startsSubgraphTok l
      · cases hm : matchSubgraphLine l <;> simp [h1, h2, h3, hm]
      · by_cases h4 : l = endTok
        · rw [if_neg h1, if_neg h2, if_neg h3, if_pos h4]
          simp [h1, h2, h3, decide_eq_true h4]
        · cases hn : parseNodeWith p.node_patterns l with
          | some e => cases hc : st.current <;> simp [h1, h2, h3, h4, hn, hc]
          | none =>
            cases he : parseEdgeWith p.edge_patterns l with
            | some e => simp [h1, h2, h3, h4, hn, he]
            | none => cases hs : parseStyle l <;> simp [h1, h2, h3, h4, hn, he, hs]

/-- How one loop iteration changes the current-subgraph marker. -/
theorem step_current (p : MermaidParser) (st : ParseState) (l : List Char) :
    (step p st l).current = ctxStep st.current l := by
  unfold step ctxStep sgOpenId isEndL
  by_cases h1 : isComment l
  · simp [h1]
  · by_cases h2 : startsDirective l
    · cases hm : matchDirection l <;> simp [h1, h2, hm]
    · by_cases h3 : startsSubgraphTok l
      · cases hm : matchSubgraphLine l <;> simp [h1, h2, h3, hm]
      · by_cases h4 : l = endTok
        · rw [if_neg h1, if_neg h2, if_neg h3, if_pos h4]
          simp [h1, h2, h3, decide_eq_true h4]
        · cases hn : parseNodeWith p.node_patterns l with
          | some e => cases hc : st.current <;> simp [h1, h2, h3, h4, hn, hc]
          | none =>
            cases he : parseEdgeWith p.edge_patterns l with
            | some e => simp [h1, h2, h3, h4, hn, he]
            | none => cases hs : parseStyle l <;> simp [h1, h2, h3, h4, hn, he, hs]

/-- The node mapping of the whole loop is the dict-fold of the node
definitions contributed by the processed lines. -/
theorem foldl_step_nodes (p : MermaidParser) :
    ∀ (ls : List (List Char)) (st : ParseState),
    (ls.foldl (step p) st).nodes =
      (ls.filterMap (procNodeDef p)).foldl (fun d e => dictSet d e.1 e.2) st.nodes := by
  intro ls
  induction ls with
  | nil => intro st; rfl
  | cons l ls ih =>
    intro st
    rw [List.foldl_cons, List.filterMap_cons, ih]
    cases hp : procNodeDef p l <;> simp [step_nodes, hp]

/-- The current-subgraph marker of the whole loop is the context fold. -/
theorem foldl_step_current (p : MermaidParser) :
    ∀ (ls : List (List Char)) (st : ParseState),
    (ls.foldl (step p) st).current = ls.foldl ctxStep st.current := by
  intro ls
  induction ls with
  | nil => intro st; rfl
  | cons l ls ih =>
    intro st
    rw [List.foldl_cons, List.foldl_cons, ih, step_current]

/-- Key insertion on a key sequence, as performed by a dict assignment. -/
def keyIns {α : Type} [DecidableEq α] (ks : List α) (k : α) : List α :=
  if k ∈ ks then ks else ks ++ [k]

/-- The key sequence of a dict-fold is the key-insertion fold. -/
theorem foldl_dictSet_keys {α β : Type} [DecidableEq α] :
    ∀ (pairs : List (α × β)) (d : List (α × β)),
    ((pairs.foldl (fun d e => dictSet d e.1 e.2) d).map Prod.fst) =
      (pairs.map Prod.fst).foldl keyIns (d.map Prod.fst) := by
  intro pairs
  induction pairs with
  | nil => intro d; rfl
  | cons e rest ih =>
    intro d
    rw [List.foldl_cons, List.map_cons, List.foldl_cons, ih]
    congr 1
    rw [keys_dictSet]
    rfl

/-- Key insertion preserves duplicate-freedom. -/
theorem keyIns_foldl_nodup {α : Type} [DecidableEq α] :
    ∀ (l : List α) (ks : List α), ks.Nodup → (l.foldl keyIns ks).Nodup := by
  intro l
  induction l with
  | nil => intro ks h; exact h
  | cons a l ih =>
    intro ks h
    rw [List.foldl_cons]
    apply ih
    unfold keyIns
    by_cases ha : a ∈ ks
    · simpa [ha] using h
    · rw [if_neg ha]
      refine List.nodup_append.mpr ⟨h, List.nodup_singleton a, ?_⟩
      intro x hx hxa
      simp only [List.mem_singleton] at hxa
      subst hxa
      exact ha hx

/-- The set of keys produced by the key-insertion fold. -/
theorem keyIns_foldl_toFinset {α : Type} [DecidableEq α] :
    ∀ (l ks : List α), (l.foldl keyIns ks).toFinset = ks.toFinset ∪ l.toFinset := by
  intro l
  induction l with
  | nil => intro ks; simp
  | cons a l ih =>
    intro ks
    rw [List.foldl_cons, ih]
    unfold keyIns
    by_cases ha : a ∈ ks
    · rw [if_pos ha]
      ext x
      simp only [Finset.mem_union, List.mem_toFinset, List.mem_cons]
      constructor
      · rintro (hx | hx)
        · exact Or.inl hx
        · exact Or.inr (Or.inr hx)
      · rintro (hx | rfl | hx)
        · exact Or.inl hx
        · exact Or.inl ha
        · exact Or.inr hx
    · rw [if_neg ha]
      ext x
      simp only [Finset.mem_union, List.mem_toFinset, List.mem_cons, List.mem_append,
        List.mem_singleton]
      tauto

/-- The size of a dict built by folding assignments over an empty dict is
the number of distinct keys assigned. -/
theorem dfold_length {α β : Type} [DecidableEq α] (pairs : List (α × β)) :
    (pairs.foldl (fun d e => dictSet d e.1 e.2) ([] : List (α × β))).length =
      (pairs.map Prod.fst).dedup.length := by
  have h1 := foldl_dictSet_keys pairs ([] : List (α × β))
  have h2 : ((pairs.map Prod.fst).foldl keyIns ([] : List α)).Nodup :=
    keyIns_foldl_nodup _ _ (by simp)
  calc (pairs.foldl (fun d e => dictSet d e.1 e.2) ([] : List (α × β))).length
      = ((pairs.foldl (fun d e => dictSet d e.1 e.2) ([] : List (α × β))).map Prod.fst).length :=
        (List.length_map _ _).symm
    _ = ((pairs.map Prod.fst).foldl keyIns ([] : List α)).length := by rw [h1]; rfl
    _ = ((pairs.map Prod.fst).foldl keyIns ([] : List α)).toFinset.card :=
        (List.toFinset_card_of_nodup h2).symm
    _ = (pairs.map Prod.fst).toFinset.card := by rw [keyIns_foldl_toFinset]; simp
    _ = (pairs.map Prod.fst).dedup.length := List.card_toFinset _

/-- The last element of a non-empty list, head form. -/
theorem getLast?_cons_form {α : Type} (a : α) (l : List α) :
    (a :: l).getLast? = some (l.getLast?.getD a) := by
  induction l generalizing a with
  | nil => rfl
  | cons b t ih => rw [List.getLast?_cons_cons, ih b]; simp

/-- Looking up a key in a dict built by folding assignments: the value of
the last assignment to that key wins, falling back to the initial dict. -/
theorem dfold_lookup {α β : Type} [DecidableEq α] :
    ∀ (pairs : List (α × β)) (d : List (α × β)) (k : α),
    dictLookup (pairs.foldl (fun d e => dictSet d e.1 e.2) d) k =
      match (pairs.filter (fun e => decide (e.1 = k))).getLast? with
      | some e => some e.2
      | none => dictLookup d k := by
  intro pairs
  induction pairs with
  | nil => intro d k; rfl
  | cons e rest ih =>
    intro d k
    rw [List.foldl_cons, ih]
    by_cases he : e.1 = k
    · cases hl : (rest.filter (fun e => decide (e.1 = k))).getLast? with
      | some f => simp [List.filter_cons, he, hl, getLast?_cons_form]
      | none => simp [List.filter_cons, he, hl, getLast?_cons_form, dictLookup_dictSet]
    · have hne : ¬ k = e.1 := fun h => he h.symm
      cases hl : (rest.filter (fun e => decide (e.1 = k))).getLast? with
      | some f => simp [List.filter_cons, he, hl]
      | none => simp [List.filter_cons, he, hl, dictLookup_dictSet, hne]

end Mermaid

namespace Mermaid

/-- The node mapping of a parse is the dict-fold of the node definitions
contributed by processed lines. -/
theorem parse_nodes_eq (s : String) :
    (parse_mermaid s).nodes =
      ((prepLines s.data).filterMap (procNodeDef MermaidParser.init)).foldl
        (fun d e => dictSet d e.1 e.2) ([] : List (List Char × PyNode)) := by
  have h := foldl_step_nodes MermaidParser.init (prepLines s.data) initState
  simpa [parse_mermaid, MermaidParser.parseCall, MermaidParser.parseChars, finishState,
    initState] using h

/-- C4, amended: the number of entries in the node mapping equals the
number of distinct ids among syntactically valid node-definition lines
that actually reach the node recognizer (lines consumed earlier by the
comment, flowchart/graph, subgraph or end branches do not count), and the
stored node for an id is the one contributed by the last such line. -/
theorem C4_amended (s : String) :
    (parse_mermaid s).nodes.length =
      (((prepLines s.data).filterMap (procNodeDef MermaidParser.init)).map Prod.fst).dedup.length ∧
    ∀ k : List Char,
      dictLookup (parse_mermaid s).nodes k =
        ((((prepLines s.data).filterMap (procNodeDef MermaidParser.init)).filter
            (fun e => decide (e.1 = k))).getLast?).map Prod.snd := by
  refine ⟨?_, ?_⟩
  · rw [parse_nodes_eq, dfold_length]
  · intro k
    rw [parse_nodes_eq, dfold_lookup]
    cases hl : (((prepLines s.data).filterMap (procNodeDef MermaidParser.init)).filter
        (fun e => decide (e.1 = k))).getLast? with
    | some f => simp [hl]
    | none => simp [hl, dictLookup]

/-- C7: a line that matches none of the recognizers leaves the loop state
completely unchanged — it contributes to no output collection.  In this
embedding `parse` is a total function: the only faults the Python loop
could raise are unreachable (the subgraph member update is guarded by the
same branch that created the record), so the wrapped-failure path is never
taken and no partial result ever escapes. -/
theorem C7_unmatched_line_frame (st : ParseState) (l : List Char)
    (h1 : isComment l = false) (h2 : startsDirective l = false)
    (h3 : startsSubgraphTok l = false) (h4 : l ≠ endTok)
    (h5 : parseNodeWith MermaidParser.init.node_patterns l = none)
    (h6 : parseEdgeWith MermaidParser.init.edge_patterns l = none)
    (h7 : parseStyle l = none) :
    step MermaidParser.init st l = st := by
  simp [step, h1, h2, h3, h4, h5, h6, h7]

/-- Witness for C7 on a concrete free-form prose line. -/
theorem C7_unmatched_line_frame_witness :
    step MermaidParser.init initState (lstr "this line is free form prose") = initState :=
  C7_unmatched_line_frame initState (lstr "this line is free form prose")
    (by decide) (by decide) (by decide) (by decide) (by decide) (by decide) (by decide)

/-- Every node `_parse_node` returns has no subgraph back-reference and an
empty property map. -/
theorem parseNodeWith_defaults (tbl : List (NodeType × List Pat)) (l : List Char)
    (e : List Char × PyNode) (h : parseNodeWith tbl l = some e) :
    e.2.subgraph = none ∧ e.2.properties = [] := by
  unfold parseNodeWith at h
  cases hr : nodeRaw l with
  | none => rw [hr] at h; simp at h
  | some q =>
    rw [hr] at h
    simp only [Option.map_some', Option.some.injEq] at h
    subst h
    exact ⟨rfl, rfl⟩

/-- Membership in a dict built by folding assignments. -/
theorem mem_dfold {α β : Type} [DecidableEq α] :
    ∀ (pairs d : List (α × β)) (q : α × β),
    q ∈ pairs.foldl (fun d e => dictSet d e.1 e.2) d → q ∈ d ∨ q ∈ pairs := by
  intro pairs
  induction pairs with
  | nil => intro d q h; exact Or.inl h
  | cons e rest ih =>
    intro d q h
    rw [List.foldl_cons] at h
    rcases ih _ q h with h2 | h2
    · rcases mem_dictSet h2 with h3 | h3
      · exact Or.inl h3
      · exact Or.inr (by simp [h3])
    · exact Or.inr (List.mem_cons_of_mem _ h2)

/-- C9: every node in the result has `subgraph = None` and an empty
`properties` map; subgraph membership lives only in the subgraph records. -/
theorem C9_node_defaults (s : String) (q : List Char × PyNode)
    (h : q ∈ (parse_mermaid s).nodes) :
    q.2.subgraph = none ∧ q.2.properties = [] := by
  rw [parse_nodes_eq] at h
  rcases mem_dfold _ _ _ h with h2 | h2
  · simp at h2
  · obtain ⟨l, _, hpl⟩ := List.mem_filterMap.mp h2
    unfold procNodeDef at hpl
    by_cases hr : reachesNodeRec l
    · rw [if_pos hr] at hpl
      exact parseNodeWith_defaults _ _ _ hpl
    · rw [if_neg hr] at hpl; cases hpl

/-- The node stored for the witness line of C9. -/
def c9Node : PyNode :=
  { id := lstr "A", raw_text := lstr "go", node_type := NodeType.ACTION,
    style_classes := [], subgraph := none, properties := [] }

/-- Witness for C9 at a concrete parse. -/
theorem C9_node_defaults_witness :
    ((lstr "A", c9Node) : List Char × PyNode).2.subgraph = none ∧
    ((lstr "A", c9Node) : List Char × PyNode).2.properties = [] :=
  C9_node_defaults "A[\"go\"]" (lstr "A", c9Node) (by decide)

/-- A successful prefix check exposes the tail. -/
theorem isPrefixOf_parts : ∀ {l₁ l₂ : List Char}, l₁.isPrefixOf l₂ = true →
    ∃ t, l₁ ++ t = l₂ := by
  intro l₁
  induction l₁ with
  | nil => intro l₂ h; exact ⟨l₂, rfl⟩
  | cons a as ih =>
    intro l₂ h
    cases l₂ with
    | nil => simp [List.isPrefixOf] at h
    | cons b bs =>
      simp only [List.isPrefixOf, Bool.and_eq_true, beq_iff_eq] at h
      obtain ⟨rfl, h2⟩ := h
      obtain ⟨t, ht⟩ := ih h2
      exact ⟨t, by rw [List.cons_append, ht]⟩

/-- C10: a line that starts with `subgraph` but fails the subgraph regex
(no word id after the keyword) is consumed with no effect at all: the
state, including the current-subgraph marker and every collection, is
unchanged, and the line never reaches the node, edge or style
recognizers. -/
theorem C10_subgraph_no_id_frame (st : ParseState) (l : List Char)
    (h : startsSubgraphTok l = true) (hm : matchSubgraphLine l = none) :
    step MermaidParser.init st l = st := by
  obtain ⟨t, ht⟩ := isPrefixOf_parts h
  have h1 : isComment l = false := by rw [← ht]; rfl
  have h2 : startsDirective l = false := by rw [← ht]; rfl
  simp [step, h1, h2, h, hm]

/-- Witness for C10 on the concrete line `subgraph -x`. -/
theorem C10_subgraph_no_id_frame_witness :
    step MermaidParser.init initState (lstr "subgraph -x") = initState :=
  C10_subgraph_no_id_frame initState (lstr "subgraph -x") (by decide) (by decide)

/-- A sequence of `parse` method calls threaded through parser instances:
each call returns its result and the instance that the next call uses. -/
def runCalls : MermaidParser → List String → List ParseResult
  | _, [] => []
  | p, s :: rest =>
    match p.parseCall s with
    | (r, p2) => r :: runCalls p2 rest

/-- C8: parse is deterministic and free of hidden state: however many
calls are interleaved through one parser, every call's result is the pure
function of its own input string alone. -/
theorem C8_pure (calls : List String) :
    runCalls MermaidParser.init calls = calls.map parse_mermaid := by
  induction calls with
  | nil => rfl
  | cons s rest ih => simp [runCalls, MermaidParser.parseCall, parse_mermaid, ih]

end Mermaid

namespace Mermaid

/-- A node id is recorded as a member of subgraph `g` in a result. -/
def memberIn (r : ParseResult) (g n : List Char) : Prop :=
  ∃ sg, dictLookup r.subgraphs g = some sg ∧ n ∈ sg.nodes

/-- The same membership on a loop state. -/
def memberInS (st : ParseState) (g n : List Char) : Prop :=
  ∃ sg, dictLookup st.subgraphs g = some sg ∧ n ∈ sg.nodes

/-- The span rule: some processed line at position `i` defines node `n`,
the subgraph context open just before that line is `g`, and no later
processed line re-opens `g` (re-opening `g` resets its member set). -/
def spanMember (p : MermaidParser) (ls : List (List Char)) (g n : List Char) : Prop :=
  ∃ i, i < ls.length ∧
    Option.bind (ls.get? i) (nodeLineId p) = some n ∧
    ctxAfter (ls.take i) = some g ∧
    ∀ j, i < j → j < ls.length → Option.bind (ls.get? j) sgOpenId ≠ some g

/-- How the span rule evolves when one more line is processed. -/
theorem spanMember_concat (p : MermaidParser) (ls : List (List Char)) (l : List Char)
    (g n : List Char) :
    spanMember p (ls ++ [l]) g n ↔
      (spanMember p ls g n ∧ sgOpenId l ≠ some g) ∨
      (nodeLineId p l = some n ∧ ctxAfter ls = some g) := by
  have hgetl : (ls ++ [l]).get? ls.length = some l := by
    simp [List.getElem?_concat_length]
  have hlen : (ls ++ [l]).length = ls.length + 1 := by
    simp
  constructor
  · rintro ⟨i, hi, hnode, hctx, hall⟩
    rw [hlen] at hi
    rcases Nat.lt_succ_iff_lt_or_eq.mp hi with hlt | heq
    · left
      refine ⟨⟨i, hlt, ?_, ?_, ?_⟩, ?_⟩
      · rw [List.get?_append hlt] at hnode; exact hnode
      · rw [List.take_append_of_le_length (le_of_lt hlt)] at hctx; exact hctx
      · intro j hj1 hj2
        have hj3 := hall j hj1 (by rw [hlen]; omega)
        rw [List.get?_append hj2] at hj3; exact hj3
      · have hj3 := hall ls.length hlt (by rw [hlen]; omega)
        rw [hgetl] at hj3
        simpa using hj3
    · subst heq
      right
      constructor
      · rw [hgetl] at hnode; simpa using hnode
      · rw [List.take_append_of_le_length (le_refl _), List.take_length] at hctx; exact hctx
  · rintro (⟨⟨i, hlt, hnode, hctx, hall⟩, hno⟩ | ⟨hnode, hctx⟩)
    · refine ⟨i, by rw [hlen]; omega, ?_, ?_, ?_⟩
      · rw [List.get?_append hlt]; exact hnode
      · rw [List.take_append_of_le_length (le_of_lt hlt)]; exact hctx
      · intro j hj1 hj2
        rw [hlen] at hj2
        rcases Nat.lt_succ_iff_lt_or_eq.mp hj2 with hj | hj
        · rw [List.get?_append hj]; exact hall j hj1 hj
        · subst hj; rw [hgetl]; simpa using hno
    · refine ⟨ls.length, by rw [hlen]; omega, ?_, ?_, ?_⟩
      · rw [hgetl]; simpa using hnode
      · rw [List.take_append_of_le_length (le_refl _), List.take_length]; exact hctx
      · intro j hj1 hj2
        rw [hlen] at hj2
        omega

/-- A line that neither defines a node nor opens a subgraph does not
change the span rule. -/
theorem span_frame_line (p : MermaidParser) (ls : List (List Char)) (l : List Char)
    (g n : List Char) (hno : sgOpenId l = none) (hnode : nodeLineId p l = none) :
    spanMember p (ls ++ [l]) g n ↔ spanMember p ls g n := by
  rw [spanMember_concat]
  simp [hno, hnode]

/-- The two induction conjuncts for a line that changes neither the
subgraph records, nor the node mapping, nor opens a subgraph. -/
theorem subgraph_frame_case (p : MermaidParser) (ls : List (List Char)) (l : List Char)
    (hsub : (step p (ls.foldl (step p) initState) l).subgraphs
              = (ls.foldl (step p) initState).subgraphs)
    (hno : sgOpenId l = none) (hnode : nodeLineId p l = none)
    (ihk : ∀ g, ctxAfter ls = some g →
        ∃ sg, dictLookup ((ls.foldl (step p) initState)).subgraphs g = some sg)
    (ihm : ∀ g n, memberInS (ls.foldl (step p) initState) g n ↔ spanMember p ls g n) :
    (∀ g, ctxAfter (ls ++ [l]) = some g →
        ∃ sg, dictLookup (((ls ++ [l]).foldl (step p) initState)).subgraphs g = some sg) ∧
    (∀ g n, memberInS ((ls ++ [l]).foldl (step p) initState) g n ↔
        spanMember p (ls ++ [l]) g n) := by
  have hfold : (ls ++ [l]).foldl (step p) initState
      = step p (ls.foldl (step p) initState) l := by
    simp
  have hctxc : ctxAfter (ls ++ [l]) = ctxStep (ctxAfter ls) l := by
    simp [ctxAfter]
  constructor
  · intro g hg
    rw [hctxc] at hg
    simp only [ctxStep, hno] at hg
    by_cases hE : isEndL l
    · rw [if_pos hE] at hg; cases hg
    · rw [if_neg hE] at hg
      rw [hfold, hsub]
      exact ihk g hg
  · intro g n
    rw [hfold]
    have hmem : memberInS (step p (ls.foldl (step p) initState) l) g n ↔
        memberInS (ls.foldl (step p) initState) g n := by
      unfold memberInS; rw [hsub]
    rw [hmem, ihm]
    exact (span_frame_line p ls l g n hno hnode).symm

end Mermaid


namespace Mermaid

/-- The two subgraph invariants of the whole loop: an open context always
has its record in the mapping, and a node id is a member of `g` exactly
when the span rule grants it. -/
theorem subgraph_master (p : MermaidParser) :
    ∀ ls : List (List Char),
    (∀ g, ctxAfter ls = some g →
        ∃ sg, dictLookup ((ls.foldl (step p) initState)).subgraphs g = some sg) ∧
    (∀ g n, memberInS (ls.foldl (step p) initState) g n ↔ spanMember p ls g n) := by
  intro ls
  induction ls using List.reverseRecOn with
  | nil =>
    constructor
    · intro g hg; simp [ctxAfter] at hg
    · intro g n
      simp [memberInS, initState, dictLookup, spanMember]
  | append_singleton ls l ih =>
    obtain ⟨ihk, ihm⟩ := ih
    have hfold : (ls ++ [l]).foldl (step p) initState
        = step p (ls.foldl (step p) initState) l := by
      simp
    have hctxc : ctxAfter (ls ++ [l]) = ctxStep (ctxAfter ls) l := by
      simp [ctxAfter]
    have hcur : (ls.foldl (step p) initState).current = ctxAfter ls := by
      rw [foldl_step_current]; rfl
    by_cases h1 : isComment l
    · refine subgraph_frame_case p ls l ?_ ?_ ?_ ihk ihm
      · simp [step, h1]
      · simp [sgOpenId, h1]
      · simp [nodeLineId, procNodeDef, reachesNodeRec, h1]
    · by_cases h2 : startsDirective l
      · refine subgraph_frame_case p ls l ?_ ?_ ?_ ihk ihm
        · cases hm : matchDirection l <;> simp [step, h1, h2, hm]
        · simp [sgOpenId, h1, h2]
        · simp [nodeLineId, procNodeDef, reachesNodeRec, h2]
      · by_cases h3 : startsSubgraphTok l
        · cases hm : matchSubgraphLine l with
          | none =>
            refine subgraph_frame_case p ls l ?_ ?_ ?_ ihk ihm
            · simp [step, h1, h2, h3, hm]
            · simp [sgOpenId, h1, h2, h3, hm]
            · simp [nodeLineId, procNodeDef, reachesNodeRec, h3]
          | some r =>
            -- a subgraph-open line: the record for r.1 is stored afresh,
            -- with an empty member set
            have hsg : sgOpenId l = some r.1 := by
              simp [sgOpenId, h1, h2, h3, hm]
            have hnode : nodeLineId p l = none := by
              simp [nodeLineId, procNodeDef, reachesNodeRec, h3]
            have hsub : (step p (ls.foldl (step p) initState) l).subgraphs
                = dictSet (ls.foldl (step p) initState).subgraphs r.1
                    { id := r.1,
                      title := match r.2 with
                        | some s => if s.isEmpty then r.1 else s
                        | none => r.1,
                      nodes := [] } := by
              simp [step, h1, h2, h3, hm]
            have hctx2 : ctxAfter (ls ++ [l]) = some r.1 := by
              rw [hctxc]; simp [ctxStep, hsg]
            constructor
            · intro g hg
              rw [hctx2] at hg
              obtain rfl : r.1 = g := by simpa using hg
              rw [hfold, hsub, dictLookup_dictSet, if_pos rfl]
              exact ⟨_, rfl⟩
            · intro g n
              rw [hfold]
              unfold memberInS
              rw [spanMember_concat]
              by_cases hgr : g = r.1
              · subst hgr
                constructor
                · rintro ⟨sg, hlk, hmem⟩
                  rw [hsub, dictLookup_dictSet, if_pos rfl] at hlk
                  obtain rfl : _ = sg := Option.some_inj.mp hlk
                  simp at hmem
                · rintro (⟨_, hne⟩ | ⟨hnn, _⟩)
                  · exact absurd hsg hne
                  · rw [hnode] at hnn; cases hnn
              · constructor
                · rintro ⟨sg, hlk, hmem⟩
                  rw [hsub, dictLookup_dictSet, if_neg hgr] at hlk
                  refine Or.inl ⟨(ihm g n).mp ⟨sg, hlk, hmem⟩, ?_⟩
                  rw [hsg]
                  exact fun hcc => hgr (Option.some_inj.mp hcc).symm
                · rintro (⟨hs, _⟩ | ⟨hnn, _⟩)
                  · obtain ⟨sg, hlk, hmem⟩ := (ihm g n).mpr hs
                    refine ⟨sg, ?_, hmem⟩
                    rw [hsub, dictLookup_dictSet, if_neg hgr]
                    exact hlk
                  · rw [hnode] at hnn; cases hnn
        · by_cases h4 : l = endTok
          · refine subgraph_frame_case p ls l ?_ ?_ ?_ ihk ihm
            · have hstep : step p (ls.foldl (step p) initState) l
                  = { (ls.foldl (step p) initState) with current := none } := by
                unfold step
                rw [if_neg h1, if_neg h2, if_neg h3, if_pos h4]
              rw [hstep]
            · simp [sgOpenId, h1, h2, h3]
            · simp [nodeLineId, procNodeDef, reachesNodeRec, decide_eq_true h4]
          · have hsg : sgOpenId l = none := by
              simp [sgOpenId, h1, h2, h3]
            have hE : isEndL l = false := by
              simp [isEndL, decide_eq_false h4]
            cases hn : parseNodeWith p.node_patterns l with
            | none =>
              refine subgraph_frame_case p ls l ?_ ?_ ?_ ihk ihm
              · cases he : parseEdgeWith p.edge_patterns l with
                | some e => simp [step, h1, h2, h3, h4, hn, he]
                | none => cases hs : parseStyle l <;> simp [step, h1, h2, h3, h4, hn, he, hs]
              · exact hsg
              · simp [nodeLineId, procNodeDef, reachesNodeRec, hn]
            | some e =>
              have hreach : reachesNodeRec l = true := by
                simp [reachesNodeRec, h1, h2, h3, decide_eq_false h4]
              have hnode : nodeLineId p l = some e.1 := by
                simp [nodeLineId, procNodeDef, hreach, hn]
              cases hc : (ls.foldl (step p) initState).current with
              | none =>
                have hctxn : ctxAfter ls = none := by rw [← hcur]; exact hc
                have hsub : (step p (ls.foldl (step p) initState) l).subgraphs
                    = (ls.foldl (step p) initState).subgraphs := by
                  simp [step, h1, h2, h3, h4, hn, hc]
                constructor
                · intro g hg
                  rw [hctxc] at hg
                  simp only [ctxStep, hsg, hE] at hg
                  rw [if_neg (by simp)] at hg
                  rw [hctxn] at hg
                  cases hg
                · intro g n
                  rw [hfold]
                  unfold memberInS
                  rw [spanMember_concat]
                  constructor
                  · rintro ⟨sg, hlk, hmem⟩
                    rw [hsub] at hlk
                    refine Or.inl ⟨(ihm g n).mp ⟨sg, hlk, hmem⟩, ?_⟩
                    rw [hsg]
                    exact fun hcc => Option.noConfusion hcc
                  · rintro (⟨hs, _⟩ | ⟨_, hcc⟩)
                    · obtain ⟨sg, hlk, hmem⟩ := (ihm g n).mpr hs
                      refine ⟨sg, ?_, hmem⟩
                      rw [hsub]
                      exact hlk
                    · rw [hctxn] at hcc; cases hcc
              | some gc =>
                have hctxg : ctxAfter ls = some gc := by rw [← hcur]; exact hc
                obtain ⟨sgc, hsgc⟩ := ihk gc hctxg
                have hsub : (step p (ls.foldl (step p) initState) l).subgraphs
                    = addMember (ls.foldl (step p) initState).subgraphs gc e.1 := by
                  simp [step, h1, h2, h3, h4, hn, hc]
                constructor
                · intro g hg
                  rw [hctxc] at hg
                  simp only [ctxStep, hsg, hE] at hg
                  rw [if_neg (by simp)] at hg
                  rw [hctxg] at hg
                  obtain rfl : gc = g := Option.some_inj.mp hg
                  rw [hfold, hsub, dictLookup_addMember, if_pos rfl, hsgc]
                  exact ⟨_, rfl⟩
                · intro g n
                  rw [hfold]
                  unfold memberInS
                  rw [spanMember_concat]
                  by_cases hgg : g = gc
                  · subst hgg
                    constructor
                    · rintro ⟨sg, hlk, hmem⟩
                      rw [hsub, dictLookup_addMember, if_pos rfl, hsgc] at hlk
                      obtain rfl : { sgc with nodes := setAdd sgc.nodes e.1 } = sg :=
                        Option.some_inj.mp hlk
                      rcases (mem_setAdd sgc.nodes e.1 n).mp hmem with hmm | hmm
                      · refine Or.inl ⟨(ihm g n).mp ⟨sgc, hsgc, hmm⟩, ?_⟩
                        rw [hsg]
                        exact fun hcc => Option.noConfusion hcc
                      · exact Or.inr ⟨by rw [hnode, hmm], hctxg⟩
                    · rintro (⟨hs, _⟩ | ⟨hnn, _⟩)
                      · obtain ⟨sg, hlk, hmem⟩ := (ihm g n).mpr hs
                        rw [hsgc] at hlk
                        obtain rfl : sgc = sg := Option.some_inj.mp hlk
                        refine ⟨{ sgc with nodes := setAdd sgc.nodes e.1 }, ?_, ?_⟩
                        · rw [hsub, dictLookup_addMember, if_pos rfl, hsgc]; rfl
                        · exact (mem_setAdd sgc.nodes e.1 n).mpr (Or.inl hmem)
                      · rw [hnode] at hnn
                        obtain rfl : e.1 = n := Option.some_inj.mp hnn
                        refine ⟨{ sgc with nodes := setAdd sgc.nodes e.1 }, ?_, ?_⟩
                        · rw [hsub, dictLookup_addMember, if_pos rfl, hsgc]; rfl
                        · exact (mem_setAdd sgc.nodes e.1 e.1).mpr (Or.inr rfl)
                  · constructor
                    · rintro ⟨sg, hlk, hmem⟩
                      rw [hsub, dictLookup_addMember, if_neg hgg] at hlk
                      refine Or.inl ⟨(ihm g n).mp ⟨sg, hlk, hmem⟩, ?_⟩
                      rw [hsg]
                      exact fun hcc => Option.noConfusion hcc
                    · rintro (⟨hs, _⟩ | ⟨_, hcc⟩)
                      · obtain ⟨sg, hlk, hmem⟩ := (ihm g n).mpr hs
                        refine ⟨sg, ?_, hmem⟩
                        rw [hsub, dictLookup_addMember, if_neg hgg]
                        exact hlk
                      · rw [hctxg] at hcc
                        obtain rfl : gc = g := Option.some_inj.mp hcc
                        exact absurd rfl (fun hx => hgg hx.symm)

end Mermaid

namespace Mermaid

/-- C6, amended: a node id `n` is a member of subgraph `g` in the result
iff some processed line defines `n` while `g` is the open context and no
later line re-opens `g` — re-opening `g` stores a fresh record with an
empty member set, so members recorded before the last `subgraph g` line
are discarded; the context itself is a single slot (open replaces, `end`
clears), which is what `ctxAfter` folds. -/
theorem C6_amended (s : String) (g n : List Char) :
    memberIn (parse_mermaid s) g n ↔
      spanMember MermaidParser.init (prepLines s.data) g n := by
  have h := (subgraph_master MermaidParser.init (prepLines s.data)).2 g n
  have h2 : memberIn (parse_mermaid s) g n ↔
      memberInS ((prepLines s.data).foldl (step MermaidParser.init) initState) g n := Iff.rfl
  rw [h2, h]

/-- The witness input for C6: one subgraph span that is never re-opened. -/
def c6wInput : String := "subgraph G\nA[\"x\"]\nend"

/-- Witness for C6 at a concrete parse: node A, defined while G is open
and with no later re-opening of G, is a member of G in the result. -/
theorem C6_amended_witness :
    memberIn (parse_mermaid c6wInput) (lstr "G") (lstr "A") :=
  (C6_amended c6wInput (lstr "G") (lstr "A")).mpr
    ⟨1, by decide, by decide, by decide, by
      intro j hj1 hj2
      have hlen : (prepLines c6wInput.data).length = 3 := by decide
      rw [hlen] at hj2
      have hj : j = 2 := by omega
      subst hj
      decide⟩

end Mermaid
